import Mathlib

/-!
Verification of the skill-matching and scoring core of the JD-Resume matcher
(src/app.py).  The Python functions are shallowly embedded as executable Lean
definitions over lists of characters (a Lean String in this toolchain is a
structure wrapping a List Char, so String-level wrappers are provided where the
source works with strings).

Modelling conventions, stated once:
* Python regex word characters (the class backslash-w) are modelled as ASCII
  alphanumerics plus the underscore; whitespace (backslash-s) as the six ASCII
  whitespace characters.  The source only ever feeds plain extracted text to
  these functions, and no claim depends on non-ASCII word characters.
* A regex substitution of the form CLASS+ -> " " followed later by whitespace
  collapsing is modelled as a character map to a space: the final collapsed
  string is identical.
* The rapidfuzz partial-ratio similarity is an external library call; it is
  modelled as an explicit functional parameter (fuzzRatio) of has_skill, so
  every theorem quantifies over it.
* json.loads is external; its outcome is modelled as an Option (none = the
  exception branch of the try/except in the source).
-/

/-- Python regex word character, ASCII fragment: [A-Za-z0-9_]. -/
def isWordChar (c : Char) : Bool := c.isAlphanum || c == '_'

/-- Python regex whitespace, ASCII fragment. -/
def isWsChar (c : Char) : Bool :=
  c == ' ' || c == '\t' || c == '\n' || c == '\r' || c == '\x0b' || c == '\x0c'

/-- The punctuation class of PUNCT_RE in src/app.py line 62:  ( ) [ ] - _ : , / . -/
def isPunctChar (c : Char) : Bool :=
  c == '(' || c == ')' || c == '[' || c == ']' || c == '-' || c == '_' ||
  c == ':' || c == ',' || c == '/'

/-- Lower-case a character list (str.lower / re.IGNORECASE, ASCII fragment). -/
def lowerL (cs : List Char) : List Char := cs.map Char.toLower

/-- str.strip(): drop leading and trailing whitespace. -/
def stripL (cs : List Char) : List Char :=
  (((cs.dropWhile isWsChar).reverse).dropWhile isWsChar).reverse

/-- Boolean test: the first list is a prefix of the second. -/
def prefEq : List Char → List Char → Bool
  | [], _ => true
  | _ :: _, [] => false
  | a :: as, b :: bs => a == b && prefEq as bs

/-- Boolean substring test (Python "in" on strings). -/
def isSub (n h : List Char) : Bool :=
  (List.range (h.length + 1)).any (fun i => prefEq n (h.drop i))

/-- First non-none value of f over a list, in order (regex leftmost match). -/
def firstSome? (f : α → Option β) : List α → Option β
  | [] => none
  | a :: l => match f a with
    | some b => some b
    | none => firstSome? f l

/-- Maximal runs of characters NOT satisfying the separator predicate p,
in order.  With p = isWsChar this is str.split(); with p = not-word-char it is
re.split(r'\W+', s) with the empty pieces removed. -/
def chunksGo (p : Char → Bool) : List Char → List Char → List (List Char)
  | acc, [] => if acc.isEmpty then [] else [acc.reverse]
  | acc, c :: cs =>
    if p c then
      (if acc.isEmpty then chunksGo p [] cs else acc.reverse :: chunksGo p [] cs)
    else chunksGo p (c :: acc) cs

def chunksBy (p : Char → Bool) (cs : List Char) : List (List Char) :=
  chunksGo p [] cs

/-- The noise tokens of NOISE_RE (src/app.py line 61).  The alternative
"exp." can never win (a word boundary cannot follow the dot unless a word
character does, in which case the alternative fails), and indeed it can never
equal a run of word characters; it is kept in the list for faithfulness. -/
def noiseWords : List (List Char) :=
  ["exp".data, "exp.".data, "experience".data, "expertise".data,
   "minimum".data, "should".data, "years".data, "yrs".data]

/-- A maximal word-character run matches NOISE_RE (case-insensitively). -/
def isNoiseRun (run : List Char) : Bool := noiseWords.contains (lowerL run)

def emitRun (run : List Char) : List Char := if isNoiseRun run then [' '] else run

/-- NOISE_RE.sub(" ", _): because every alternative of NOISE_RE consists of
word characters between two word boundaries, a match is exactly a maximal
word-character run equal (case-insensitively) to a noise token; each such run
is replaced by a single space.  The accumulator holds the current word run,
reversed. -/
def noiseSubGo : List Char → List Char → List Char
  | acc, [] => emitRun acc.reverse
  | acc, c :: cs =>
    if isWordChar c then noiseSubGo (c :: acc) cs
    else emitRun acc.reverse ++ c :: noiseSubGo [] cs

def noiseSub (cs : List Char) : List Char := noiseSubGo [] cs

/-- Scanning check that no maximal word-character run of the input is a noise
token, with the same accumulator discipline as noiseSubGo. -/
def noNoiseGo : List Char → List Char → Bool
  | acc, [] => !isNoiseRun acc.reverse
  | acc, c :: cs =>
    if isWordChar c then noNoiseGo (c :: acc) cs
    else !isNoiseRun acc.reverse && noNoiseGo [] cs

def noNoise (cs : List Char) : Bool := noNoiseGo [] cs

/-- One character of PUNCT_RE.sub(" ", _). -/
def punctChar (c : Char) : Char := if isPunctChar c then ' ' else c

/-- PUNCT_RE.sub(" ", _), modelled character-wise (see header note). -/
def punctSub (cs : List Char) : List Char := cs.map punctChar

/-- Join chunks with single spaces: the combined effect of
re.sub(r'\s+', ' ', x).strip() expressed through the chunks of x. -/
def joinWords : List (List Char) → List Char
  | [] => []
  | [w] => w
  | w :: x :: ws => w ++ ' ' :: joinWords (x :: ws)

/-- normalize_skill_label (src/app.py lines 64-71) on character lists. -/
def normL (cs : List Char) : List Char :=
  joinWords (chunksBy isWsChar (punctSub (noiseSub (stripL cs))))

/-- normalize_skill_label (src/app.py lines 64-71).  The source returns ""
for a falsy argument; the guard is kept although the pipeline also sends the
empty string to the empty string. -/
def normalize_skill_label (s : String) : String :=
  if s.data.isEmpty then "" else String.mk (normL s.data)

/-! ### Numeric / years regex machinery -/

/-- Value of a digit run (int(...) in the source). -/
def natOfDigits (ds : List Char) : Nat :=
  ds.foldl (fun a c => 10 * a + (c.toNat - '0'.toNat)) 0

/-- Maximal digit run starting at position p. -/
def digitsAt (t : List Char) (p : Nat) : List Char :=
  (t.drop p).takeWhile Char.isDigit

/-- Length of the maximal whitespace run starting at position p. -/
def wsLenAt (t : List Char) (p : Nat) : Nat :=
  ((t.drop p).takeWhile isWsChar).length

def charAt? (t : List Char) (p : Nat) : Option Char := t.get? p

/-- Length of the unit alternation years|yrs|y when one of them (first in that
priority order) starts at position p. -/
def unitLenAt (t : List Char) (p : Nat) : Option Nat :=
  if prefEq "years".data (t.drop p) then some 5
  else if prefEq "yrs".data (t.drop p) then some 3
  else if prefEq "y".data (t.drop p) then some 1
  else none

/-- Match of a tail of the form digits, optional whitespace, optional plus,
optional whitespace, unit, anchored at position p; returns the captured number.
Backtracking is vacuous here: a shortened digit run is followed by a digit,
which neither whitespace, plus nor a unit can match, so the greedy maximal
run is forced. -/
def numTailAt (t : List Char) (p : Nat) : Option Nat :=
  let ds := digitsAt t p
  if ds.isEmpty then none
  else
    let q := p + ds.length
    let q2 := q + wsLenAt t q
    let q3 := if charAt? t q2 == some '+' then q2 + 1 else q2
    let q4 := q3 + wsLenAt t q3
    if (unitLenAt t q4).isSome then some (natOfDigits ds) else none

/-- Match of a range "digits ws dash ws digits" (ASCII hyphen or en-dash)
anchored at p; returns the end position and the second digit run. -/
def rangeEndAt (t : List Char) (p : Nat) : Option (Nat × List Char) :=
  let d1 := digitsAt t p
  if d1.isEmpty then none
  else
    let i1 := p + d1.length + wsLenAt t (p + d1.length)
    if charAt? t i1 == some '-' || charAt? t i1 == some '–' then
      let i2 := i1 + 1 + wsLenAt t (i1 + 1)
      let d2 := digitsAt t i2
      if d2.isEmpty then none else some (i2 + d2.length, d2)
    else none

/-- Second alternative of the year-group pattern of extract_years_near_skill
(src/app.py lines 124 and 137): digits with an optional trailing plus, then
whitespace and a unit.  Returns the captured group and the match end. -/
def yearGroupAlt2 (t : List Char) (p : Nat) : Option (List Char × Nat) :=
  let ds := digitsAt t p
  if ds.isEmpty then none
  else
    let q1 := p + ds.length
    let plus := if charAt? t q1 == some '+' then 1 else 0
    let q2 := q1 + plus + wsLenAt t (q1 + plus)
    match unitLenAt t q2 with
    | some u => some ((t.drop p).take (q1 + plus - p), q2 + u)
    | none => none

/-- One attempted match of the year-group pattern
(range-or-plain-number followed by whitespace and a unit) at position p:
the range alternative is preferred, exactly as in the regex alternation. -/
def yearGroupAt (t : List Char) (p : Nat) : Option (List Char × Nat) :=
  match rangeEndAt t p with
  | some (q, _) =>
    let q2 := q + wsLenAt t q
    match unitLenAt t q2 with
    | some u => some ((t.drop p).take (q - p), q2 + u)
    | none => yearGroupAlt2 t p
  | none => yearGroupAlt2 t p

/-- re.findall of the year-group pattern: non-overlapping, left to right,
resuming at each match end.  Fuel decreases once per position step. -/
def findYearGo (t : List Char) : Nat → Nat → List (List Char)
  | 0, _ => []
  | fuel + 1, p =>
    if p > t.length then []
    else match yearGroupAt t p with
      | some (g, e) => g :: findYearGo t fuel (max e (p + 1))
      | none => findYearGo t fuel (p + 1)

def findYearGroups (t : List Char) : List (List Char) :=
  findYearGo t (t.length + 1) 0

/-- re.findall of a digit pattern inside a matched group: the digit runs. -/
def numsIn (g : List Char) : List (List Char) :=
  chunksBy (fun c => !c.isDigit) g

/-- The per-group resolution loop of extract_years_near_skill (src/app.py
lines 126-133 and 138-146): if the group contains an ASCII hyphen, take the
last number in it, otherwise the first. -/
def resolveGroup (g : List Char) : Option Nat :=
  if g.contains '-' then
    match (numsIn g).getLast? with
    | some ds => some (natOfDigits ds)
    | none => none
  else
    match (numsIn g).head? with
    | some ds => some (natOfDigits ds)
    | none => none

/-- max() over the collected list (all values are naturals). -/
def natMax (l : List Nat) : Nat := l.foldl Nat.max 0

/-- Leftmost match of the first pattern of parse_years_from_text
(src/app.py line 76). -/
def searchNumUnit (t : List Char) : Option Nat :=
  firstSome? (fun p => numTailAt t p) (List.range (t.length + 1))

/-- Leftmost match of the second pattern of parse_years_from_text
(src/app.py line 82), capturing the second number of the range. -/
def searchRangePat (t : List Char) : Option Nat :=
  firstSome? (fun p =>
    match rangeEndAt t p with
    | some (_, d2) => some (natOfDigits d2)
    | none => none) (List.range (t.length + 1))

/-- parse_years_from_text (src/app.py lines 73-88). -/
def parse_years_from_text (s : String) : Option Nat :=
  if s.data.isEmpty then none
  else match searchNumUnit s.data with
    | some n => some n
    | none => searchRangePat s.data

/-! ### Presence detection (has_skill, src/app.py lines 91-114) -/

def isWordOpt : Option Char → Bool
  | none => false
  | some c => isWordChar c

/-- Regex word boundary at absolute position i of t: exactly one of the two
neighbouring positions holds a word character. -/
def bnd (t : List Char) (i : Nat) : Bool :=
  (if i == 0 then false else isWordOpt (t.get? (i - 1))) != isWordOpt (t.get? i)

/-- A whole-word (word-boundary delimited) occurrence of tok somewhere in t. -/
def wordHit (tok t : List Char) : Bool :=
  (List.range (t.length + 1)).any
    (fun i => prefEq tok (t.drop i) && bnd t i && bnd t (i + tok.length))

/-- The tokens of has_skill (line 104): re.split on non-word runs with empty
pieces removed, i.e. the maximal word-character runs, of any length. -/
def tokensOf (s : List Char) : List (List Char) :=
  chunksBy (fun c => !isWordChar c) s

/-- The whole-token tier of has_skill (lines 104-105). -/
def wholeTokenHit (s t : List Char) : Bool :=
  let tokens := tokensOf s
  !tokens.isEmpty && tokens.all (fun tok => wordHit tok t)

/-- The whole-token tier as worded by the spec (section 4.4 tier 2): only
tokens of length at least 2 are kept, and the tier is true exactly when every
such token occurs as a whole word.  This definition follows the SPEC text, for
comparison against the source-derived wholeTokenHit. -/
def wholeTokenTierSpec (s t : List Char) : Bool :=
  ((tokensOf s).filter (fun tok => decide (2 ≤ tok.length))).all
    (fun tok => wordHit tok t)

/-- The exact/substring tier of has_skill (lines 96-101): the stripped
lowered label or any lowered synonym, when non-empty, as a substring. -/
def substrHit (s : List Char) (cands : List (List Char)) (t : List Char) : Bool :=
  (s :: cands).any (fun c => !c.isEmpty && isSub c t)

/-- has_skill (src/app.py lines 91-114).  fuzzRatio stands for the external
rapidfuzz partial-ratio call of line 110 and is quantified in every theorem. -/
def has_skill (fuzzRatio : List Char → List Char → ℚ) (text skill : String)
    (synonyms : List String) (strict : Bool) : Bool :=
  if text.data.isEmpty || skill.data.isEmpty then false
  else
    let t := lowerL text.data
    let s := stripL (lowerL skill.data)
    if substrHit s (synonyms.map (fun v => lowerL v.data)) t then true
    else if wholeTokenHit s t then true
    else if !strict && decide (3 < s.length) then decide ((85 : ℚ) ≤ fuzzRatio s t)
    else false

/-! ### Experience extraction (extract_years_near_skill, lines 116-147) -/

/-- re.finditer of a literal pattern: non-overlapping occurrence start
positions, left to right (a zero-width pattern advances by one). -/
def occGo (syn t : List Char) : Nat → Nat → List Nat
  | 0, _ => []
  | fuel + 1, p =>
    if p > t.length then []
    else if prefEq syn (t.drop p) then p :: occGo syn t fuel (p + max syn.length 1)
    else occGo syn t fuel (p + 1)

def occList (syn t : List Char) : List Nat := occGo syn t (t.length + 1) 0

/-- Years found in the 120-character windows around every occurrence of one
synonym (the inner loops of lines 119-133). -/
def windowYears (t : List Char) (window : Nat) (syn : List Char) : List Nat :=
  (occList syn t).flatMap (fun st =>
    let en := st + syn.length
    let s0 := st - window
    let e0 := min t.length (en + window)
    let win := (t.drop s0).take (e0 - s0)
    (findYearGroups win).filterMap resolveGroup)

/-- extract_years_near_skill (src/app.py lines 116-147). -/
def extract_years_near_skill (text : String) (skill_syns : List String)
    (window : Nat) : Option Nat :=
  let t := lowerL text.data
  let near := skill_syns.flatMap (fun syn => windowYears t window (lowerL syn.data))
  if !near.isEmpty then some (natMax near)
  else
    let glob := (findYearGroups t).filterMap resolveGroup
    if glob.isEmpty then none else some (natMax glob)

/-! ### Candidate requirement detection (src/app.py line 210) -/

def litAt (t pat : List Char) (p : Nat) : Bool := prefEq pat (t.drop p)

/-- End positions of the alternatives minimum | at least | >= | boundary-skill-
boundary matching at position s, in the alternation order of the regex. -/
def altsEndAt (t c : List Char) (s : Nat) : List Nat :=
  (if litAt t "minimum".data s then [s + 7] else []) ++
  (if litAt t "at least".data s then [s + 8] else []) ++
  (if litAt t ">=".data s then [s + 2] else []) ++
  (if bnd t s && litAt t c s && bnd t (s + c.length) then [s + c.length] else [])

/-- The lazy gap ".{0,80}?" (no newlines) followed by the numeric tail:
smallest workable gap first. -/
def gapScan (t : List Char) (q : Nat) : Option Nat :=
  firstSome? (fun g =>
    if q + g ≤ t.length && ((t.drop q).take g).all (fun ch => ch != '\n') then
      numTailAt t (q + g)
    else none) (List.range 81)

/-- The whole candidate-requirement pattern attempted at start position s. -/
def reqMatchAt (t c : List Char) (s : Nat) : Option Nat :=
  firstSome? (fun e => gapScan t e) (altsEndAt t c s)

/-- The requirement detection of the JD deconstruction block (src/app.py
line 210): a single case-insensitive search, leftmost start position wins. -/
def candidateReq (jd c : String) : Option Nat :=
  let t := lowerL jd.data
  firstSome? (reqMatchAt t (lowerL c.data)) (List.range (t.length + 1))

/-! ### Requirement parsing as worded by the spec (section 4.3), kept for the
refinement comparison of claim C8 -/

def specTriggers : List (List Char) :=
  ["minimum".data, "at least".data, "required".data, "needs".data, "need".data,
   "must have".data, "experience of".data]

/-- A number with unit as the spec resolves it: digits with optional plus, or
a range resolving to its upper bound; returns value and end position. -/
def specNumSingle (t : List Char) (p : Nat) : Option (Nat × Nat) :=
  let ds := digitsAt t p
  if ds.isEmpty then none
  else
    let q1 := p + ds.length
    let plus := if charAt? t q1 == some '+' then 1 else 0
    let q2 := q1 + plus + wsLenAt t (q1 + plus)
    match unitLenAt t q2 with
    | some u => some (natOfDigits ds, q2 + u)
    | none => none

def specNumAt (t : List Char) (p : Nat) : Option (Nat × Nat) :=
  match rangeEndAt t p with
  | some (q, d2) =>
    let q2 := q + wsLenAt t q
    match unitLenAt t q2 with
    | some u => some (natOfDigits d2, q2 + u)
    | none => specNumSingle t p
  | none => specNumSingle t p

/-- Spec pattern 1: a trigger phrase, then a number with unit, followed
eventually by the skill name (the in/with connector is optional, so only the
later occurrence of the skill is required). -/
def specP1 (t c : List Char) : Option Nat :=
  firstSome? (fun i =>
    firstSome? (fun trig =>
      if litAt t trig i then
        firstSome? (fun d =>
          match specNumAt t (i + trig.length + d) with
          | some (n, u) => if isSub c (t.drop u) then some n else none
          | none => none) (List.range (t.length + 1))
      else none) specTriggers) (List.range (t.length + 1))

/-- Spec pattern 2: the skill name followed within 60 characters by a number
with unit. -/
def specP2 (t c : List Char) : Option Nat :=
  firstSome? (fun i =>
    if litAt t c i then
      firstSome? (fun g => (specNumAt t (i + c.length + g)).map Prod.fst)
        (List.range 61)
    else none) (List.range (t.length + 1))

/-- Spec pattern 3: a number with unit followed within 60 characters by in or
with and then the skill name. -/
def specP3 (t c : List Char) : Option Nat :=
  firstSome? (fun p =>
    match specNumAt t p with
    | some (n, u) =>
      firstSome? (fun g =>
        if (litAt t "in".data (u + g) || litAt t "with".data (u + g)) &&
            isSub c (t.drop (u + g)) then some n else none) (List.range 61)
    | none => none) (List.range (t.length + 1))

/-- The requirement parser as worded by the spec (section 4.3): three
patterns tried in order on the lower-cased text, first match wins. -/
def specCandidateReq (jd c : String) : Option Nat :=
  let t := lowerL jd.data
  let cl := lowerL c.data
  match specP1 t cl with
  | some n => some n
  | none => match specP2 t cl with
    | some n => some n
    | none => specP3 t cl

/-! ### Skill list parsing and the scoring run (src/app.py lines 226-347) -/

structure UserSkill where
  skill : String
  group : String
  req : Option Nat
deriving Repr, DecidableEq

structure FinalSkill where
  name : String
  group : String
  req : Option Nat
  synonyms : List String
deriving Repr, DecidableEq

/-- Content after the first colon of the line (line.split(":", 1)[1]). -/
def afterColon (l : List Char) : List Char :=
  (l.dropWhile (fun c => c != ':')).drop 1

/-- One line of the skill textarea (src/app.py lines 229-239).  The line is
already stripped and non-empty. -/
def parseSkillLine (l : List Char) : UserSkill :=
  let low := lowerL l
  if prefEq "m:".data low || prefEq "mandatory:".data low then
    ⟨normalize_skill_label (String.mk (stripL (afterColon l))), "mandatory", none⟩
  else if prefEq "d:".data low || prefEq "desired:".data low then
    ⟨normalize_skill_label (String.mk (stripL (afterColon l))), "desired", none⟩
  else ⟨normalize_skill_label (String.mk l), "desired", none⟩

/-- parse_skill_list (src/app.py lines 226-240).  str.splitlines is modelled
by splitting at newline and carriage-return characters; the only difference
(empty pieces at a CRLF pair or a trailing newline) is erased by the same
strip-and-drop-empty filter the source applies. -/
def parse_skill_list (text : String) : List UserSkill :=
  ((((chunksBy (fun c => c == '\n' || c == '\r') text.data).map stripL).filter
    (fun l => !l.isEmpty)).map parseSkillLine)

/-- DEFAULT_SYNONYMS (src/app.py lines 150-155). -/
def DEFAULT_SYNONYMS : List (String × List String) :=
  [("ci/cd", ["ci/cd", "ci cd", "continuous integration", "continuous delivery",
              "jenkins", "pipeline", "devops"]),
   ("tosca", ["tosca", "tricentis tosca", "tricentis"]),
   ("web application automation", ["web application", "web app", "ui automation",
              "selenium", "frontend", "web testing", "browser testing"]),
   ("mainframe automation testing", ["mainframe", "3270", "green screen",
              "mainframe testing", "jcl", "cobol"])]

/-- dict.get(key, []) on the synonym map. -/
def mapGet (m : List (String × List String)) (k : String) : List String :=
  match m.find? (fun kv => kv.1 == k) with
  | some kv => kv.2
  | none => []

/-- The try/except around json.loads of the synonym textarea (src/app.py
lines 263-267): a parse failure (modelled as none) falls back to the built-in
default map. -/
def loadSynonymsMap (parsed : Option (List (String × List String))) :
    List (String × List String) :=
  match parsed with
  | some m => m
  | none => DEFAULT_SYNONYMS

def lowerS (s : String) : String := String.mk (lowerL s.data)

/-- build_skills_from_user (src/app.py lines 277-285). -/
def build_skills_from_user (us : List UserSkill)
    (synMap : List (String × List String)) : List FinalSkill :=
  us.map (fun s => ⟨s.skill, s.group, s.req, mapGet synMap (lowerS s.skill)⟩)

/-- The per-skill score computation (src/app.py lines 317-328).  The Python
truthiness test "if req:" is false both for None and for 0, hence the nested
structure; pw is the presence weight (slider value / 100). -/
def skillScore (pw : ℚ) (present : Bool) (years req : Option Nat) : ℚ :=
  match req with
  | some r =>
    if r = 0 then (if present then 1 else 0)
    else
      match present, years with
      | true, some y => pw * 1 + (1 - pw) * min ((y : ℚ) / (r : ℚ)) 1
      | true, none => pw * 1 + (1 - pw) * 0
      | false, _ => 0
  | none => if present then 1 else 0

/-- sum(scores)/len(scores) if scores else 0.0 (src/app.py lines 343-344). -/
def avgQ (l : List ℚ) : ℚ := if l.isEmpty then 0 else l.sum / (l.length : ℚ)

/-- round(x, 2), modelled as exact rational rounding to two decimals (Python
rounds the nearest double and breaks ties to even; only the value's bounds
matter to the claims, and both roundings send [0, 100] into [0, 100]). -/
def round2 (x : ℚ) : ℚ := ((round (x * 100) : ℤ) : ℚ) / 100

/-- The aggregation of src/app.py lines 340-345: fixed 0.8/0.2 group
weighting, times 100, rounded to two decimals. -/
def overallPercent (ms ds : List ℚ) : ℚ :=
  round2 ((avgQ ms * (8 / 10) + avgQ ds * (2 / 10)) * 100)

/-- Presence and conditional years extraction for one (resume, skill) pair
(src/app.py lines 315-316). -/
def matchPair (fz : List Char → List Char → ℚ) (strict : Bool) (txt : String)
    (sk : FinalSkill) : Bool × Option Nat :=
  let present := has_skill fz txt sk.name sk.synonyms strict
  (present, if present then extract_years_near_skill txt (sk.name :: sk.synonyms) 120 else none)

/-- Group tag and score of one (resume, skill) pair. -/
def skillRow (fz : List Char → List Char → ℚ) (pw : ℚ) (strict : Bool)
    (txt : String) (sk : FinalSkill) : String × ℚ :=
  let pr := matchPair fz strict txt sk
  (sk.group, skillScore pw pr.1 pr.2 sk.req)

/-- The whole per-resume scoring loop (src/app.py lines 307-346): per-skill
rows, partition into the mandatory and desired groups, weighted aggregate. -/
def resumeOverall (fz : List Char → List Char → ℚ) (pw : ℚ) (strict : Bool)
    (skills : List FinalSkill) (txt : String) : ℚ :=
  let rows := skills.map (skillRow fz pw strict txt)
  let ms := (rows.filter (fun r => r.1 == "mandatory")).map Prod.snd
  let ds := (rows.filter (fun r => r.1 != "mandatory")).map Prod.snd
  overallPercent ms ds

/-- The constant-zero stand-in for the external fuzzy ratio, used to
instantiate concrete evaluations. -/
def zeroRatio : List Char → List Char → ℚ := fun _ _ => 0

/-! ### Helper lemmas -/

theorem firstSome?_eq_none (f : α → Option β) (l : List α) :
    firstSome? f l = none ↔ ∀ a ∈ l, f a = none := by
  induction l with
  | nil => simp [firstSome?]
  | cons a l ih =>
    cases h : f a with
    | some b => simp [firstSome?, h]
    | none => simp [firstSome?, h, ih]

theorem firstSome?_eq_some (f : α → Option β) (l : List α) (b : β)
    (h : firstSome? f l = some b) : ∃ a ∈ l, f a = some b := by
  induction l with
  | nil => simp [firstSome?] at h
  | cons a l ih =>
    cases ha : f a with
    | some c =>
      simp [firstSome?, ha] at h
      exact ⟨a, by simp, by rw [ha, h]⟩
    | none =>
      simp [firstSome?, ha] at h
      obtain ⟨x, hx, hfx⟩ := ih h
      exact ⟨x, by simp [hx], hfx⟩

theorem prefEq_iff (n h : List Char) : prefEq n h = true ↔ ∃ r, h = n ++ r := by
  induction n generalizing h with
  | nil => simp [prefEq]
  | cons a as ih =>
    cases h with
    | nil => simp [prefEq]
    | cons b bs =>
      simp only [prefEq, Bool.and_eq_true, beq_iff_eq, ih, List.cons_append,
        List.cons.injEq]
      constructor
      · rintro ⟨rfl, r, rfl⟩; exact ⟨r, rfl, rfl⟩
      · rintro ⟨r, rfl, rfl⟩; exact ⟨rfl, r, rfl⟩

theorem isSub_iff (n h : List Char) : isSub n h = true ↔ ∃ l r, h = l ++ n ++ r := by
  constructor
  · intro hs
    obtain ⟨i, _, hp⟩ := List.any_eq_true.mp hs
    obtain ⟨r, hr⟩ := (prefEq_iff _ _).mp hp
    exact ⟨h.take i, r, by rw [List.append_assoc, ← hr, List.take_append_drop]⟩
  · rintro ⟨l, r, rfl⟩
    refine List.any_eq_true.mpr ⟨l.length, List.mem_range.mpr ?_, ?_⟩
    · simp only [List.length_append]
      omega
    · rw [List.append_assoc, List.drop_left]
      exact (prefEq_iff _ _).mpr ⟨r, rfl⟩

theorem isSub_trans {a b c : List Char} (h1 : isSub a b = true)
    (h2 : isSub b c = true) : isSub a c = true := by
  obtain ⟨l1, r1, rfl⟩ := (isSub_iff _ _).mp h1
  obtain ⟨l2, r2, rfl⟩ := (isSub_iff _ _).mp h2
  exact (isSub_iff _ _).mpr ⟨l2 ++ l1, r1 ++ r2, by simp⟩

theorem stripL_decomp (cs : List Char) : ∃ l r, cs = l ++ stripL cs ++ r := by
  refine ⟨cs.takeWhile isWsChar,
    (((cs.dropWhile isWsChar).reverse).takeWhile isWsChar).reverse, ?_⟩
  have h3 : cs.dropWhile isWsChar =
      (((cs.dropWhile isWsChar).reverse).dropWhile isWsChar).reverse ++
      (((cs.dropWhile isWsChar).reverse).takeWhile isWsChar).reverse := by
    conv_lhs => rw [← List.reverse_reverse (cs.dropWhile isWsChar)]
    conv_lhs => rw [← List.takeWhile_append_dropWhile isWsChar
      ((cs.dropWhile isWsChar).reverse)]
    rw [List.reverse_append]
  calc cs = cs.takeWhile isWsChar ++ cs.dropWhile isWsChar :=
      (List.takeWhile_append_dropWhile isWsChar cs).symm
    _ = cs.takeWhile isWsChar ++
        ((((cs.dropWhile isWsChar).reverse).dropWhile isWsChar).reverse ++
         (((cs.dropWhile isWsChar).reverse).takeWhile isWsChar).reverse) := by
      rw [← h3]
    _ = _ := by rw [stripL, List.append_assoc]

theorem isSub_stripL (cs : List Char) : isSub (stripL cs) cs = true := by
  obtain ⟨l, r, h⟩ := stripL_decomp cs
  exact (isSub_iff _ _).mpr ⟨l, r, h⟩

theorem isSub_ne_nil {n h : List Char} (hn : n ≠ []) (hs : isSub n h = true) :
    h ≠ [] := by
  obtain ⟨l, r, rfl⟩ := (isSub_iff _ _).mp hs
  intro he
  rcases List.append_eq_nil.mp (List.append_eq_nil.mp he).1 with ⟨-, h2⟩
  exact hn h2

/-! ### Claim C10 -/

/-- C10: when a skill's required years value is 0 (Python-falsy) or absent,
the scorer treats the skill as presence-only (1.0 if present, 0.0 otherwise);
the division years/required_years lives only in the branch where the
requirement is a nonzero natural, so no division by zero is ever evaluated. -/
theorem C10_falsy_requirement_presence_only (pw : ℚ) (present : Bool)
    (years : Option Nat) :
    skillScore pw present years (some 0) = (if present then 1 else 0) ∧
    skillScore pw present years none = (if present then 1 else 0) := by
  constructor <;> simp [skillScore]

/-! ### Claim C2 -/

/-- C2: for every (resume, skill) pair the extracted years component of the
match record is non-none only when presence holds: the experience extractor is
consulted only behind the presence test, otherwise the years value is none. -/
theorem C2_years_only_if_present (fz : List Char → List Char → ℚ)
    (strict : Bool) (txt : String) (sk : FinalSkill)
    (h : (matchPair fz strict txt sk).2 ≠ none) :
    (matchPair fz strict txt sk).1 = true := by
  cases hb : has_skill fz txt sk.name sk.synonyms strict with
  | true => simp [matchPair, hb]
  | false => simp [matchPair, hb] at h

theorem C2_years_only_if_present_witness :
    (matchPair zeroRatio true "tosca 5 years" ⟨"tosca", "mandatory", none, []⟩).2 ≠ none ∧
    (matchPair zeroRatio true "tosca 5 years" ⟨"tosca", "mandatory", none, []⟩).1 = true :=
  ⟨by decide, C2_years_only_if_present _ _ _ _ (by decide)⟩

/-! ### Claim C3 -/

/-- C3: evaluation of the extractor at the failing input.  For the en-dash
range "3–5 years" the extractor resolves to the LOWER bound 3, because the
resolution branch tests the matched group only for the ASCII hyphen; the same
text with an ASCII hyphen resolves to 5, and the requirement-side parser
(parse_years_from_text) also yields 5 on the en-dash text, as the claim
demands of both. -/
theorem C3_en_dash_range_lower_bound :
    extract_years_near_skill "tosca 3–5 years" ["tosca"] 120 = some 3 ∧
    extract_years_near_skill "tosca 3-5 years" ["tosca"] 120 = some 5 ∧
    parse_years_from_text "tosca 3–5 years" = some 5 := by
  refine ⟨?_, ?_, ?_⟩ <;> rfl

/-! ### Claim C7 -/

/-- C7 counterexample: a line whose label normalizes to the empty string is
kept in the parsed skill list (the claim says it is dropped). -/
theorem C7_empty_label_kept :
    parse_skill_list "years" = [⟨"", "desired", none⟩] := by
  rfl

theorem parseSkillLine_req_none (l : List Char) : (parseSkillLine l).req = none := by
  unfold parseSkillLine
  by_cases h1 : (prefEq "m:".data (lowerL l) || prefEq "mandatory:".data (lowerL l)) = true
  · simp [h1]
  · by_cases h2 : (prefEq "d:".data (lowerL l) || prefEq "desired:".data (lowerL l)) = true
    · simp [h1, h2]
    · simp [h1, h2]

/-- C7 amended: entries whose labels normalize to the empty string are kept,
not dropped: parse_skill_list emits exactly one entry (with a possibly empty
label and no requirement) for every line that is non-empty after stripping. -/
theorem C7_one_entry_per_line (text : String) :
    (parse_skill_list text).length =
      (((chunksBy (fun c => c == '\n' || c == '\r') text.data).map stripL).filter
        (fun l => !l.isEmpty)).length ∧
    (parse_skill_list text).all (fun u => u.req == none) = true := by
  constructor
  · simp [parse_skill_list]
  · rw [List.all_eq_true]
    intro u hu
    rw [parse_skill_list] at hu
    obtain ⟨l, -, rfl⟩ := List.mem_map.mp hu
    simp [parseSkillLine_req_none]

/-! ### Claim C9 -/

/-- C9 counterexample: on a failed synonym-JSON parse the fallback map is the
built-in DEFAULT_SYNONYMS, which is not empty and still resolves skills (here
"tosca") to a non-empty synonym list; the claim says the fallback is an empty
synonym map. -/
theorem C9_fallback_not_empty :
    loadSynonymsMap none ≠ [] ∧
    mapGet (loadSynonymsMap none) "tosca" = ["tosca", "tricentis tosca", "tricentis"] := by
  exact ⟨by decide, rfl⟩

/-- C9 amended: when the synonym configuration fails to parse, the system
falls back to the built-in default synonym map (not an empty one) for all
skills, and the run continues: the skill list is still built, one final skill
per user skill.  The error is not fatal. -/
theorem C9_fallback_is_default (us : List UserSkill) :
    loadSynonymsMap none = DEFAULT_SYNONYMS ∧
    (build_skills_from_user us (loadSynonymsMap none)).length = us.length := by
  exact ⟨rfl, by simp [build_skills_from_user]⟩

/-! ### Claim C8 -/

/-- A job description in which the skill "tosca" is followed, 65 characters
later, by "5 years": inside the 80-character gap of the source regex, outside
the 60-character window the spec describes, and free of every trigger phrase. -/
def gapJD : String :=
  String.mk ("tosca".data ++ List.replicate 65 ' ' ++ "5 years".data)

/-- C8 counterexample: on gapJD the source requirement detector finds the
requirement 5 (its single pattern allows a lazy gap of up to 80 characters),
while the three-pattern, 60-character-window parser worded by the spec finds
nothing.  The claimed behaviour therefore differs from the code at this
input. -/
theorem C8_eighty_char_gap_counterexample :
    candidateReq gapJD "tosca" = some 5 ∧ specCandidateReq gapJD "tosca" = none := by
  exact ⟨rfl, rfl⟩

/-- C8 amended: the requirement detection applies one combined pattern (a
trigger "minimum", "at least", ">=" or the boundary-delimited skill name,
followed within 0 to 80 non-newline characters by a number with a years unit)
at every start position of the lower-cased text, leftmost first: it returns
none exactly when no position matches, and any returned value is the capture
of some matching position. -/
theorem C8_single_pattern_characterisation (jd c : String) :
    (candidateReq jd c = none ↔
      ∀ s ∈ List.range ((lowerL jd.data).length + 1),
        reqMatchAt (lowerL jd.data) (lowerL c.data) s = none) ∧
    (∀ n, candidateReq jd c = some n →
      ∃ s ∈ List.range ((lowerL jd.data).length + 1),
        reqMatchAt (lowerL jd.data) (lowerL c.data) s = some n) := by
  constructor
  · simpa only [candidateReq] using
      firstSome?_eq_none (reqMatchAt (lowerL jd.data) (lowerL c.data))
        (List.range ((lowerL jd.data).length + 1))
  · intro n h
    exact firstSome?_eq_some _ _ _ (by simpa only [candidateReq] using h)

theorem C8_single_pattern_characterisation_witness :
    candidateReq "abc" "q" = none :=
  (C8_single_pattern_characterisation "abc" "q").1.mpr (by decide)

/-! ### Claim C1 -/

theorem qsum_nonneg (l : List ℚ) (h : ∀ x ∈ l, 0 ≤ x) : 0 ≤ l.sum := by
  induction l with
  | nil => simp
  | cons a l ih =>
    simp only [List.sum_cons]
    have ha := h a (by simp)
    have hl := ih (fun x hx => h x (by simp [hx]))
    linarith

theorem qsum_le_length (l : List ℚ) (h : ∀ x ∈ l, x ≤ 1) :
    l.sum ≤ (l.length : ℚ) := by
  induction l with
  | nil => simp
  | cons a l ih =>
    simp only [List.sum_cons, List.length_cons]
    have ha := h a (by simp)
    have hl := ih (fun x hx => h x (by simp [hx]))
    push_cast
    linarith

theorem avgQ_bounds (l : List ℚ) (h : ∀ x ∈ l, 0 ≤ x ∧ x ≤ 1) :
    0 ≤ avgQ l ∧ avgQ l ≤ 1 := by
  by_cases he : l.isEmpty = true
  · simp [avgQ, he]
  · have hne : l ≠ [] := by simpa [List.isEmpty_iff] using he
    have hlen : 0 < (l.length : ℚ) := by
      exact_mod_cast List.length_pos.mpr hne
    unfold avgQ
    rw [if_neg he]
    constructor
    · exact div_nonneg (qsum_nonneg l fun x hx => (h x hx).1) (le_of_lt hlen)
    · rw [div_le_one hlen]
      exact qsum_le_length l fun x hx => (h x hx).2

theorem round2_bounds (x : ℚ) (h0 : 0 ≤ x) (h1 : x ≤ 100) :
    0 ≤ round2 x ∧ round2 x ≤ 100 := by
  unfold round2
  have hk0 : (0 : ℤ) ≤ round (x * 100) := by
    rw [round_eq]
    exact Int.le_floor.mpr (by push_cast; linarith)
  have hk1 : round (x * 100) ≤ 10000 := by
    rw [round_eq]
    have hf : (⌊x * 100 + 1 / 2⌋ : ℤ) < 10001 := Int.floor_lt.mpr (by push_cast; linarith)
    omega
  constructor
  · apply div_nonneg _ (by norm_num : (0:ℚ) ≤ 100)
    exact_mod_cast hk0
  · rw [div_le_iff₀ (by norm_num : (0:ℚ) < 100)]
    calc ((round (x * 100) : ℤ) : ℚ) ≤ 10000 := by exact_mod_cast hk1
      _ = 100 * 100 := by norm_num

theorem overallPercent_bounds (ms ds : List ℚ)
    (hm : ∀ x ∈ ms, 0 ≤ x ∧ x ≤ 1) (hd : ∀ x ∈ ds, 0 ≤ x ∧ x ≤ 1) :
    0 ≤ overallPercent ms ds ∧ overallPercent ms ds ≤ 100 := by
  unfold overallPercent
  obtain ⟨hm0, hm1⟩ := avgQ_bounds ms hm
  obtain ⟨hd0, hd1⟩ := avgQ_bounds ds hd
  exact round2_bounds _ (by nlinarith) (by nlinarith)

theorem skillScore_bounds (pw : ℚ) (h1 : 2 / 5 ≤ pw) (h2 : pw ≤ 9 / 10)
    (present : Bool) (years req : Option Nat) :
    0 ≤ skillScore pw present years req ∧ skillScore pw present years req ≤ 1 := by
  cases req with
  | none => cases present <;> simp [skillScore]
  | some r =>
    by_cases hr : r = 0
    · subst hr; cases present <;> simp [skillScore]
    · cases present with
      | false => cases years <;> simp [skillScore, hr]
      | true =>
        cases years with
        | none =>
          simp only [skillScore, hr, if_false]
          constructor <;> nlinarith
        | some y =>
          simp only [skillScore, hr, if_false]
          have hy : (0:ℚ) ≤ (y:ℚ) / (r:ℚ) :=
            div_nonneg (Nat.cast_nonneg y) (Nat.cast_nonneg r)
          have hm0 : (0:ℚ) ≤ min ((y:ℚ) / (r:ℚ)) 1 := le_min hy zero_le_one
          have hm1 : min ((y:ℚ) / (r:ℚ)) 1 ≤ 1 := min_le_right _ _
          have hp1 : (0:ℚ) ≤ 1 - pw := by linarith
          have hlow := mul_nonneg hp1 hm0
          have hup := mul_le_mul_of_nonneg_left hm1 hp1
          constructor <;> nlinarith

/-- C1: for every (resume, skill) pair the per-skill score lies in [0, 1],
and for every resume the aggregated overall percentage lies in [0, 100], for
any presence weight in [0.4, 0.9], any required-years value, any extracted
years value, any strictness, any resume text and any skill list. -/
theorem C1_score_and_overall_bounds (pw : ℚ) (h1 : 2 / 5 ≤ pw) (h2 : pw ≤ 9 / 10) :
    (∀ present years req,
      0 ≤ skillScore pw present years req ∧ skillScore pw present years req ≤ 1) ∧
    (∀ fz strict skills txt,
      0 ≤ resumeOverall fz pw strict skills txt ∧
        resumeOverall fz pw strict skills txt ≤ 100) := by
  refine ⟨fun present years req => skillScore_bounds pw h1 h2 present years req, ?_⟩
  intro fz strict skills txt
  have hall : ∀ r ∈ skills.map (skillRow fz pw strict txt), 0 ≤ r.2 ∧ r.2 ≤ 1 := by
    intro r hr
    obtain ⟨sk, -, rfl⟩ := List.mem_map.mp hr
    exact skillScore_bounds pw h1 h2 _ _ _
  simp only [resumeOverall]
  apply overallPercent_bounds
  · intro x hx
    obtain ⟨r, hrf, rfl⟩ := List.mem_map.mp hx
    exact hall r (List.mem_filter.mp hrf).1
  · intro x hx
    obtain ⟨r, hrf, rfl⟩ := List.mem_map.mp hx
    exact hall r (List.mem_filter.mp hrf).1

theorem C1_score_and_overall_bounds_witness :
    ((2:ℚ) / 5 ≤ 3 / 5 ∧ (3:ℚ) / 5 ≤ 9 / 10) ∧
    (0 ≤ resumeOverall zeroRatio (3 / 5) true
        [⟨"tosca", "mandatory", some 5, []⟩] "worked with tosca for 3-6 years" ∧
      resumeOverall zeroRatio (3 / 5) true
        [⟨"tosca", "mandatory", some 5, []⟩] "worked with tosca for 3-6 years" ≤ 100) :=
  ⟨⟨by norm_num, by norm_num⟩,
    (C1_score_and_overall_bounds (3 / 5) (by norm_num) (by norm_num)).2
      zeroRatio true _ _⟩

/-! ### Claim C5 -/

/-- C5 counterexample: the empty skill label occurs (vacuously) as a
case-insensitive substring of every text, yet has_skill returns false for it,
because the guard of the source function rejects a falsy skill argument; so
the claim is not true for EVERY skill label. -/
theorem C5_empty_label_counterexample :
    isSub (lowerL "".data) (lowerL "abc".data) = true ∧
    has_skill zeroRatio "abc" "" [] false = false := by
  exact ⟨rfl, rfl⟩

/-- C5 amended: if the skill label is not whitespace-only (its lower-cased
stripped form is non-empty) and the label occurs as a case-insensitive
substring of the text, or some non-empty synonym does, then has_skill returns
true regardless of the strict flag (and of the fuzzy-ratio oracle). -/
theorem C5_substring_implies_present (fz : List Char → List Char → ℚ)
    (text skill : String) (synonyms : List String) (strict : Bool)
    (hs : stripL (lowerL skill.data) ≠ [])
    (hocc : isSub (lowerL skill.data) (lowerL text.data) = true ∨
      ∃ v ∈ synonyms, lowerL v.data ≠ [] ∧
        isSub (lowerL v.data) (lowerL text.data) = true) :
    has_skill fz text skill synonyms strict = true := by
  have hskill_ne : skill.data ≠ [] := by
    intro h0
    exact hs (by rw [h0]; rfl)
  have hsub : substrHit (stripL (lowerL skill.data))
      (synonyms.map (fun v => lowerL v.data)) (lowerL text.data) = true := by
    rcases hocc with hlab | ⟨v, hv, hvne, hvocc⟩
    · refine List.any_eq_true.mpr ⟨stripL (lowerL skill.data), by simp, ?_⟩
      rw [Bool.and_eq_true]
      refine ⟨by simpa [List.isEmpty_iff] using hs, ?_⟩
      exact isSub_trans (isSub_stripL _) hlab
    · refine List.any_eq_true.mpr ⟨lowerL v.data, ?_, ?_⟩
      · exact List.mem_cons_of_mem _ (List.mem_map.mpr ⟨v, hv, rfl⟩)
      · rw [Bool.and_eq_true]
        exact ⟨by simpa [List.isEmpty_iff] using hvne, hvocc⟩
  have htext_ne : text.data ≠ [] := by
    rcases hocc with hlab | ⟨v, hv, hvne, hvocc⟩
    · have hln : lowerL skill.data ≠ [] := by
        intro h0
        exact hskill_ne (List.map_eq_nil_iff.mp h0)
      have := isSub_ne_nil hln hlab
      intro h0
      exact this (by rw [h0]; rfl)
    · have := isSub_ne_nil hvne hvocc
      intro h0
      exact this (by rw [h0]; rfl)
  have hE1 : text.data.isEmpty = false := by simpa [List.isEmpty_iff] using htext_ne
  have hE2 : skill.data.isEmpty = false := by simpa [List.isEmpty_iff] using hskill_ne
  simp [has_skill, hE1, hE2, hsub]

theorem C5_substring_implies_present_witness :
    stripL (lowerL "Java ".data) ≠ [] ∧
    isSub (lowerL "Java ".data) (lowerL "using java daily".data) = true ∧
    has_skill zeroRatio "using java daily" "Java " [] true = true :=
  ⟨by decide, by decide,
    C5_substring_implies_present zeroRatio "using java daily" "Java " [] true
      (by decide) (Or.inl (by decide))⟩

/-! ### Claim C6 -/

/-- C6 counterexample: for the skill label "c++ dev" and the text "dev work",
the whole-token tier as the spec words it (tokens of length at least 2, here
just "dev") would fire, but has_skill in strict mode returns false, because
the source keeps ALL non-empty tokens, including the single character "c",
and "c" has no whole-word occurrence in the text. -/
theorem C6_short_token_counterexample :
    wholeTokenTierSpec (stripL (lowerL "c++ dev".data)) (lowerL "dev work".data) = true ∧
    has_skill zeroRatio "dev work" "c++ dev" [] true = false := by
  exact ⟨rfl, rfl⟩

/-- C6 amended: the whole-token tier splits the skill label into ALL
non-empty word tokens (length 1 or more; no length filter) and fires exactly
when the token list is non-empty and every token occurs as a whole word at a
word boundary anywhere in the text, independent of order or adjacency; in
strict mode has_skill is exactly the substring tier joined with this tier. -/
theorem C6_whole_token_tier (fz : List Char → List Char → ℚ)
    (text skill : String) (synonyms : List String)
    (h1 : text.data ≠ []) (h2 : skill.data ≠ []) :
    has_skill fz text skill synonyms true =
      (substrHit (stripL (lowerL skill.data))
          (synonyms.map (fun v => lowerL v.data)) (lowerL text.data) ||
        wholeTokenHit (stripL (lowerL skill.data)) (lowerL text.data)) := by
  have hE1 : text.data.isEmpty = false := by simpa [List.isEmpty_iff] using h1
  have hE2 : skill.data.isEmpty = false := by simpa [List.isEmpty_iff] using h2
  cases hA : substrHit (stripL (lowerL skill.data))
      (synonyms.map (fun v => lowerL v.data)) (lowerL text.data) with
  | true => simp [has_skill, hE1, hE2, hA]
  | false =>
    cases hB : wholeTokenHit (stripL (lowerL skill.data)) (lowerL text.data) with
    | true => simp [has_skill, hE1, hE2, hA, hB]
    | false => simp [has_skill, hE1, hE2, hA, hB]

theorem C6_whole_token_tier_witness :
    ("python  dev" : String).data ≠ [] ∧ ("Python Dev" : String).data ≠ [] ∧
    has_skill zeroRatio "python  dev" "Python Dev" [] true =
      (substrHit (stripL (lowerL "Python Dev".data))
          (([] : List String).map (fun v => lowerL v.data)) (lowerL "python  dev".data) ||
        wholeTokenHit (stripL (lowerL "Python Dev".data)) (lowerL "python  dev".data)) :=
  ⟨by decide, by decide,
    C6_whole_token_tier zeroRatio "python  dev" "Python Dev" [] (by decide) (by decide)⟩

/-! ### Claim C4: machinery.
The normalizer pipeline is strip, noise removal, punctuation removal,
whitespace collapse.  The second application is shown to be the identity on
the output of the first whenever the input contains no underscore; the
underscore is the unique character that is both a word character (so it
shields a noise token from NOISE_RE) and in the punctuation class (so the
punctuation pass deletes it afterwards, exposing the noise token). -/

theorem isNoiseRun_nil : isNoiseRun [] = false := by decide

theorem ws_not_word {c : Char} (h : isWsChar c = true) : isWordChar c = false := by
  simp only [isWsChar, Bool.or_eq_true, beq_iff_eq] at h
  rcases h with ((((h | h) | h) | h) | h) | h <;> subst h <;> decide

theorem punct_not_word {c : Char} (hne : c ≠ '_') (h : isPunctChar c = true) :
    isWordChar c = false := by
  simp only [isPunctChar, Bool.or_eq_true, beq_iff_eq] at h
  rcases h with ((((((((h | h) | h) | h) | h) | h) | h) | h) | h) <;> subst h <;>
    first | decide | exact absurd rfl hne

theorem punctChar_not_punct (c : Char) : isPunctChar (punctChar c) = false := by
  cases hb : isPunctChar c with
  | true =>
    rw [punctChar, if_pos hb]
    decide
  | false =>
    rw [punctChar, if_neg (by simp [hb])]
    exact hb

theorem punctChar_word (c : Char) (hne : c ≠ '_') :
    isWordChar (punctChar c) = isWordChar c ∧
      (isWordChar c = true → punctChar c = c) := by
  cases hb : isPunctChar c with
  | true =>
    have hw : isWordChar c = false := punct_not_word hne hb
    constructor
    · rw [punctChar, if_pos hb, hw]
      decide
    · intro hwt
      rw [hw] at hwt
      cases hwt
  | false =>
    have hfix : punctChar c = c := by rw [punctChar, if_neg (by simp [hb])]
    exact ⟨by rw [hfix], fun _ => hfix⟩

theorem noNoiseGo_shift (w : List Char) (hw : ∀ c ∈ w, isWordChar c = true) :
    ∀ acc rest, noNoiseGo acc (w ++ rest) = noNoiseGo (w.reverse ++ acc) rest := by
  induction w with
  | nil => intro acc rest; simp
  | cons a w ih =>
    intro acc rest
    have ha : isWordChar a = true := hw a (by simp)
    have hstep : noNoiseGo acc (a :: (w ++ rest)) = noNoiseGo (a :: acc) (w ++ rest) := by
      simp [noNoiseGo, ha]
    rw [List.cons_append, hstep, ih (fun c hc => hw c (by simp [hc])) (a :: acc) rest]
    simp

theorem noNoiseGo_split (u : List Char) {x : Char} (hx : isWordChar x = false) :
    ∀ acc v, noNoiseGo acc (u ++ x :: v) = (noNoiseGo acc u && noNoiseGo [] v) := by
  induction u with
  | nil =>
    intro acc v
    simp [noNoiseGo, hx]
  | cons a u ih =>
    intro acc v
    cases ha : isWordChar a with
    | true =>
      have h1 : noNoiseGo acc (a :: (u ++ x :: v)) = noNoiseGo (a :: acc) (u ++ x :: v) := by
        simp [noNoiseGo, ha]
      have h2 : noNoiseGo acc (a :: u) = noNoiseGo (a :: acc) u := by
        simp [noNoiseGo, ha]
      rw [List.cons_append, h1, ih, h2]
    | false =>
      have h1 : noNoiseGo acc (a :: (u ++ x :: v)) =
          (!isNoiseRun acc.reverse && noNoiseGo [] (u ++ x :: v)) := by
        simp [noNoiseGo, ha]
      have h2 : noNoiseGo acc (a :: u) =
          (!isNoiseRun acc.reverse && noNoiseGo [] u) := by
        simp [noNoiseGo, ha]
      rw [List.cons_append, h1, ih, h2, Bool.and_assoc]

theorem noiseSubGo_id_of_noNoise :
    ∀ (cs acc : List Char), noNoiseGo acc cs = true →
      noiseSubGo acc cs = acc.reverse ++ cs := by
  intro cs
  induction cs with
  | nil =>
    intro acc h
    simp only [noNoiseGo] at h
    simp only [Bool.not_eq_eq_eq_not, Bool.not_true] at h
    simp only [noiseSubGo, emitRun]
    rw [if_neg (by simp [h]), List.append_nil]
  | cons c cs ih =>
    intro acc h
    cases hc : isWordChar c with
    | true =>
      have hh : noNoiseGo (c :: acc) cs = true := by
        have he : noNoiseGo acc (c :: cs) = noNoiseGo (c :: acc) cs := by
          simp [noNoiseGo, hc]
        rw [← he]; exact h
      have hstep : noiseSubGo acc (c :: cs) = noiseSubGo (c :: acc) cs := by
        simp [noiseSubGo, hc]
      rw [hstep, ih (c :: acc) hh]
      simp
    | false =>
      have he : noNoiseGo acc (c :: cs) =
          (!isNoiseRun acc.reverse && noNoiseGo [] cs) := by
        simp [noNoiseGo, hc]
      rw [he, Bool.and_eq_true] at h
      have h1 : isNoiseRun acc.reverse = false := by
        have := h.1
        simp only [Bool.not_eq_eq_eq_not, Bool.not_true] at this
        exact this
      have hstep : noiseSubGo acc (c :: cs) =
          emitRun acc.reverse ++ c :: noiseSubGo [] cs := by
        simp [noiseSubGo, hc]
      rw [hstep, emitRun, if_neg (by simp [h1]), ih [] h.2]
      simp

theorem noNoise_noiseSubGo :
    ∀ (cs acc : List Char), (∀ c ∈ acc, isWordChar c = true) →
      noNoiseGo [] (noiseSubGo acc cs) = true := by
  intro cs
  induction cs with
  | nil =>
    intro acc hacc
    show noNoiseGo [] (emitRun acc.reverse) = true
    cases hn : isNoiseRun acc.reverse with
    | true =>
      rw [emitRun, if_pos hn]
      decide
    | false =>
      rw [emitRun, if_neg (by simp [hn])]
      have hrev : ∀ c ∈ acc.reverse, isWordChar c = true := by
        intro c hc
        exact hacc c (List.mem_reverse.mp hc)
      have hs := noNoiseGo_shift acc.reverse hrev [] []
      rw [List.append_nil] at hs
      rw [hs]
      simp [noNoiseGo, hn]
  | cons c cs ih =>
    intro acc hacc
    cases hc : isWordChar c with
    | true =>
      have hstep : noiseSubGo acc (c :: cs) = noiseSubGo (c :: acc) cs := by
        simp [noiseSubGo, hc]
      rw [hstep]
      exact ih (c :: acc) (by
        intro x hx
        rcases List.mem_cons.mp hx with h | h
        · rw [h]; exact hc
        · exact hacc x h)
    | false =>
      have hstep : noiseSubGo acc (c :: cs) =
          emitRun acc.reverse ++ c :: noiseSubGo [] cs := by
        simp [noiseSubGo, hc]
      rw [hstep]
      cases hn : isNoiseRun acc.reverse with
      | true =>
        rw [emitRun, if_pos hn]
        have hsp : isWordChar ' ' = false := by decide
        simp only [List.cons_append, List.nil_append, noNoiseGo, hsp, hc,
          if_false, List.reverse_nil, isNoiseRun_nil, Bool.not_false,
          Bool.true_and, Bool.false_eq_true]
        exact ih [] (by simp)
      | false =>
        rw [emitRun, if_neg (by simp [hn])]
        rw [noNoiseGo_split acc.reverse hc [] (noiseSubGo [] cs), Bool.and_eq_true]
        constructor
        · have hrev : ∀ x ∈ acc.reverse, isWordChar x = true := by
            intro x hx
            exact hacc x (List.mem_reverse.mp hx)
          have hs := noNoiseGo_shift acc.reverse hrev [] []
          rw [List.append_nil] at hs
          rw [hs]
          simp [noNoiseGo, hn]
        · exact ih [] (by simp)

theorem noNoise_noiseSub (cs : List Char) : noNoise (noiseSub cs) = true :=
  noNoise_noiseSubGo cs [] (by simp)

theorem noNoiseGo_punctSub :
    ∀ (cs : List Char), (∀ c ∈ cs, c ≠ '_') →
      ∀ acc, noNoiseGo acc (punctSub cs) = noNoiseGo acc cs := by
  intro cs
  induction cs with
  | nil => intro _ acc; rfl
  | cons c cs ih =>
    intro h acc
    have hcw := punctChar_word c (h c (by simp))
    have hrest : ∀ x ∈ cs, x ≠ '_' := fun x hx => h x (by simp [hx])
    simp only [punctSub, List.map_cons]
    cases hw : isWordChar c with
    | true =>
      rw [hcw.2 hw]
      have h1 : noNoiseGo acc (c :: cs.map punctChar) = noNoiseGo (c :: acc) (cs.map punctChar) := by
        simp [noNoiseGo, hw]
      have h2 : noNoiseGo acc (c :: cs) = noNoiseGo (c :: acc) cs := by
        simp [noNoiseGo, hw]
      rw [h1, h2]
      exact ih hrest (c :: acc)
    | false =>
      have hw2 : isWordChar (punctChar c) = false := by rw [hcw.1]; exact hw
      have h1 : noNoiseGo acc (punctChar c :: cs.map punctChar) =
          (!isNoiseRun acc.reverse && noNoiseGo [] (cs.map punctChar)) := by
        simp [noNoiseGo, hw2]
      have h2 : noNoiseGo acc (c :: cs) =
          (!isNoiseRun acc.reverse && noNoiseGo [] cs) := by
        simp [noNoiseGo, hw]
      rw [h1, h2]
      have ih2 := ih hrest []
      simp only [punctSub] at ih2
      rw [ih2]

theorem mem_noiseSubGo :
    ∀ (cs acc : List Char) (c : Char), c ∈ noiseSubGo acc cs →
      c = ' ' ∨ c ∈ cs ∨ c ∈ acc := by
  intro cs
  induction cs with
  | nil =>
    intro acc c hc
    simp only [noiseSubGo, emitRun] at hc
    by_cases hn : isNoiseRun acc.reverse = true
    · rw [if_pos hn] at hc
      simp at hc
      exact Or.inl hc
    · rw [if_neg hn] at hc
      exact Or.inr (Or.inr (List.mem_reverse.mp hc))
  | cons a cs ih =>
    intro acc c hc
    cases ha : isWordChar a with
    | true =>
      have hstep : noiseSubGo acc (a :: cs) = noiseSubGo (a :: acc) cs := by
        simp [noiseSubGo, ha]
      rw [hstep] at hc
      rcases ih (a :: acc) c hc with h | h | h
      · exact Or.inl h
      · exact Or.inr (Or.inl (by simp [h]))
      · rcases List.mem_cons.mp h with h | h
        · exact Or.inr (Or.inl (by simp [h]))
        · exact Or.inr (Or.inr h)
    | false =>
      have hstep : noiseSubGo acc (a :: cs) =
          emitRun acc.reverse ++ a :: noiseSubGo [] cs := by
        simp [noiseSubGo, ha]
      rw [hstep] at hc
      rcases List.mem_append.mp hc with h | h
      · rw [emitRun] at h
        by_cases hn : isNoiseRun acc.reverse = true
        · rw [if_pos hn] at h
          simp at h
          exact Or.inl h
        · rw [if_neg hn] at h
          exact Or.inr (Or.inr (List.mem_reverse.mp h))
      · rcases List.mem_cons.mp h with h | h
        · exact Or.inr (Or.inl (by simp [h]))
        · rcases ih [] c h with h2 | h2 | h2
          · exact Or.inl h2
          · exact Or.inr (Or.inl (by simp [h2]))
          · exact absurd h2 (List.not_mem_nil c)

theorem mem_stripL {c : Char} {cs : List Char} (h : c ∈ stripL cs) : c ∈ cs := by
  obtain ⟨l, r, he⟩ := stripL_decomp cs
  rw [he]
  simp [List.mem_append, h]

theorem chunksGo_props (p : Char → Bool) :
    ∀ (cs acc : List Char), (∀ c ∈ acc, p c = false) →
      ∀ w ∈ chunksGo p acc cs, w ≠ [] ∧ ∀ c ∈ w, p c = false := by
  intro cs
  induction cs with
  | nil =>
    intro acc hacc w hw
    cases acc with
    | nil => simp [chunksGo] at hw
    | cons a acc2 =>
      simp only [chunksGo, List.isEmpty_cons, Bool.false_eq_true, if_false,
        List.mem_singleton] at hw
      subst hw
      refine ⟨by simp, ?_⟩
      intro c hc
      exact hacc c (List.mem_reverse.mp hc)
  | cons c cs ih =>
    intro acc hacc w hw
    cases hp : p c with
    | true =>
      cases acc with
      | nil =>
        simp only [chunksGo, hp, if_true, List.isEmpty_nil] at hw
        exact ih [] (by simp) w hw
      | cons a acc2 =>
        simp only [chunksGo, hp, if_true, List.isEmpty_cons, Bool.false_eq_true,
          if_false, List.mem_cons] at hw
        rcases hw with hw | hw
        · subst hw
          exact ⟨by simp, fun c2 hc2 => hacc c2 (List.mem_reverse.mp hc2)⟩
        · exact ih [] (by simp) w hw
    | false =>
      simp only [chunksGo, hp, Bool.false_eq_true, if_false] at hw
      refine ih (c :: acc) ?_ w hw
      intro x hx
      rcases List.mem_cons.mp hx with h | h
      · rw [h]; exact hp
      · exact hacc x h

theorem chunksGo_consume (p : Char → Bool) :
    ∀ (u : List Char), (∀ c ∈ u, p c = false) →
      ∀ acc t, chunksGo p acc (u ++ t) = chunksGo p (u.reverse ++ acc) t := by
  intro u
  induction u with
  | nil => intro _ acc t; simp
  | cons a u ih =>
    intro h acc t
    have ha : p a = false := h a (by simp)
    have hstep : chunksGo p acc (a :: (u ++ t)) = chunksGo p (a :: acc) (u ++ t) := by
      simp [chunksGo, ha]
    rw [List.cons_append, hstep, ih (fun c hc => h c (by simp [hc])) (a :: acc) t]
    simp

theorem chunks_joinWords (ws : List (List Char))
    (h : ∀ w ∈ ws, w ≠ [] ∧ ∀ c ∈ w, isWsChar c = false) :
    chunksBy isWsChar (joinWords ws) = ws := by
  induction ws with
  | nil => rfl
  | cons w ws ih =>
    cases ws with
    | nil =>
      have hw := h w (by simp)
      show chunksGo isWsChar [] (joinWords [w]) = [w]
      rw [show joinWords [w] = w from rfl]
      have hc := chunksGo_consume isWsChar w hw.2 [] []
      rw [List.append_nil] at hc
      rw [hc]
      have he : (w.reverse : List Char).isEmpty = false := by
        simp [List.isEmpty_iff, hw.1]
      simp only [List.append_nil, chunksGo, he, Bool.false_eq_true, if_false,
        List.reverse_reverse]
    | cons x ws2 =>
      have hw := h w (by simp)
      show chunksGo isWsChar [] (joinWords (w :: x :: ws2)) = w :: x :: ws2
      rw [show joinWords (w :: x :: ws2) = w ++ ' ' :: joinWords (x :: ws2) from rfl,
        chunksGo_consume isWsChar w hw.2 [] (' ' :: joinWords (x :: ws2))]
      have he : (w.reverse : List Char).isEmpty = false := by
        simp [List.isEmpty_iff, hw.1]
      simp only [List.append_nil, chunksGo, show isWsChar ' ' = true from rfl,
        if_true, he, Bool.false_eq_true, if_false, List.reverse_reverse]
      congr 1
      exact ih (fun v hv => h v (by simp [hv]))

theorem joinWords_ne_nil (ws : List (List Char)) (hne : ws ≠ [])
    (h : ∀ w ∈ ws, w ≠ []) : joinWords ws ≠ [] := by
  cases ws with
  | nil => exact absurd rfl hne
  | cons w ws =>
    cases ws with
    | nil => exact h w (by simp)
    | cons x ws2 =>
      simp only [joinWords, ne_eq, List.append_eq_nil]
      rintro ⟨-, h2⟩
      cases h2

theorem mem_joinWords :
    ∀ (ws : List (List Char)) (c : Char), c ∈ joinWords ws →
      c = ' ' ∨ ∃ w ∈ ws, c ∈ w := by
  intro ws
  induction ws with
  | nil =>
    intro c hc
    exact absurd hc (List.not_mem_nil c)
  | cons w ws ih =>
    cases ws with
    | nil =>
      intro c hc
      exact Or.inr ⟨w, by simp, hc⟩
    | cons x ws2 =>
      intro c hc
      rw [show joinWords (w :: x :: ws2) = w ++ ' ' :: joinWords (x :: ws2) from rfl] at hc
      rcases List.mem_append.mp hc with h | h
      · exact Or.inr ⟨w, by simp, h⟩
      · rcases List.mem_cons.mp h with h | h
        · exact Or.inl h
        · rcases ih c h with h2 | ⟨v, hv, hcv⟩
          · exact Or.inl h2
          · exact Or.inr ⟨v, by simp [hv], hcv⟩

theorem mem_chunksGo (p : Char → Bool) :
    ∀ (cs acc w : List Char), w ∈ chunksGo p acc cs →
      ∀ c ∈ w, c ∈ cs ∨ c ∈ acc := by
  intro cs
  induction cs with
  | nil =>
    intro acc w hw c hc
    cases acc with
    | nil => simp [chunksGo] at hw
    | cons a acc2 =>
      simp only [chunksGo, List.isEmpty_cons, Bool.false_eq_true, if_false,
        List.mem_singleton] at hw
      subst hw
      exact Or.inr (List.mem_reverse.mp hc)
  | cons a cs ih =>
    intro acc w hw c hc
    cases hp : p a with
    | true =>
      cases acc with
      | nil =>
        simp only [chunksGo, hp, if_true, List.isEmpty_nil] at hw
        rcases ih [] w hw c hc with h | h
        · exact Or.inl (by simp [h])
        · exact absurd h (List.not_mem_nil c)
      | cons b acc2 =>
        simp only [chunksGo, hp, if_true, List.isEmpty_cons, Bool.false_eq_true,
          if_false, List.mem_cons] at hw
        rcases hw with hw | hw
        · subst hw
          exact Or.inr (List.mem_reverse.mp hc)
        · rcases ih [] w hw c hc with h | h
          · exact Or.inl (by simp [h])
          · exact absurd h (List.not_mem_nil c)
    | false =>
      simp only [chunksGo, hp, Bool.false_eq_true, if_false] at hw
      rcases ih (a :: acc) w hw c hc with h | h
      · exact Or.inl (by simp [h])
      · rcases List.mem_cons.mp h with h | h
        · exact Or.inl (by simp [h])
        · exact Or.inr h

theorem punctSub_id (cs : List Char) (h : ∀ c ∈ cs, isPunctChar c = false) :
    punctSub cs = cs := by
  induction cs with
  | nil => rfl
  | cons c cs ih =>
    simp only [punctSub, List.map_cons]
    rw [show punctChar c = c from by rw [punctChar, if_neg (by simp [h c (by simp)])]]
    congr 1
    have h2 := ih (fun x hx => h x (by simp [hx]))
    simpa [punctSub] using h2

theorem mem_punctSub {c : Char} {cs : List Char} (h : c ∈ punctSub cs) :
    isPunctChar c = false := by
  obtain ⟨d, -, rfl⟩ := List.mem_map.mp h
  exact punctChar_not_punct d

theorem joinWords_head_not_ws :
    ∀ (ws : List (List Char)),
      (∀ w ∈ ws, w ≠ [] ∧ ∀ c ∈ w, isWsChar c = false) →
      ∀ d ∈ (joinWords ws).head?, isWsChar d = false := by
  intro ws
  induction ws with
  | nil =>
    intro _ d hd
    simp [joinWords] at hd
  | cons w ws ih =>
    cases ws with
    | nil =>
      intro h d hd
      have hw := h w (by simp)
      exact hw.2 d (List.mem_of_mem_head? hd)
    | cons x ws2 =>
      intro h d hd
      have hw := h w (by simp)
      rw [show joinWords (w :: x :: ws2) = w ++ ' ' :: joinWords (x :: ws2) from rfl] at hd
      cases hwc : w with
      | nil => exact absurd hwc hw.1
      | cons a w2 =>
        rw [hwc] at hd
        simp only [List.cons_append, List.head?_cons, Option.mem_def,
          Option.some.injEq] at hd
        rw [← hd]
        exact hw.2 a (by rw [hwc]; simp)

theorem joinWords_revhead_not_ws :
    ∀ (ws : List (List Char)),
      (∀ w ∈ ws, w ≠ [] ∧ ∀ c ∈ w, isWsChar c = false) →
      ∀ d ∈ (joinWords ws).reverse.head?, isWsChar d = false := by
  intro ws
  induction ws with
  | nil =>
    intro _ d hd
    simp [joinWords] at hd
  | cons w ws ih =>
    cases ws with
    | nil =>
      intro h d hd
      have hw := h w (by simp)
      have : d ∈ w.reverse := List.mem_of_mem_head? hd
      exact hw.2 d (List.mem_reverse.mp this)
    | cons x ws2 =>
      intro h d hd
      have hJne : joinWords (x :: ws2) ≠ [] :=
        joinWords_ne_nil _ (by simp) (fun v hv => (h v (by simp [hv])).1)
      rw [show joinWords (w :: x :: ws2) = w ++ ' ' :: joinWords (x :: ws2) from rfl,
        List.reverse_append, List.reverse_cons] at hd
      cases hJr : (joinWords (x :: ws2)).reverse with
      | nil => exact absurd (by simpa using hJr) hJne
      | cons b r2 =>
        rw [hJr] at hd
        simp only [List.cons_append, List.head?_cons, Option.mem_def,
          Option.some.injEq] at hd
        subst hd
        apply ih (fun v hv => h v (by simp [hv]))
        rw [hJr]
        simp

theorem stripL_eq_self (cs : List Char)
    (h1 : ∀ d ∈ cs.head?, isWsChar d = false)
    (h2 : ∀ d ∈ cs.reverse.head?, isWsChar d = false) :
    stripL cs = cs := by
  unfold stripL
  cases cs with
  | nil => rfl
  | cons a t =>
    have ha : isWsChar a = false := h1 a (by simp)
    rw [List.dropWhile_cons_of_neg (by simp [ha])]
    cases hr : (a :: t).reverse with
    | nil => simp at hr
    | cons b r2 =>
      have hb : isWsChar b = false := by
        apply h2 b
        rw [hr]
        simp
      have hdw : List.dropWhile isWsChar (b :: r2) = b :: r2 :=
        List.dropWhile_cons_of_neg (by simp [hb])
      rw [hdw, ← hr, List.reverse_reverse]

theorem dropWhile_head_false (p : Char → Bool) :
    ∀ (l : List Char) (d : Char) (t : List Char), l.dropWhile p = d :: t →
      p d = false := by
  intro l
  induction l with
  | nil =>
    intro d t h
    simp at h
  | cons a l ih =>
    intro d t h
    cases hp : p a with
    | true =>
      rw [List.dropWhile_cons_of_pos hp] at h
      exact ih d t h
    | false =>
      rw [List.dropWhile_cons_of_neg (by simp [hp])] at h
      cases h
      exact hp

theorem noNoise_chunks_aux :
    ∀ (n : Nat) (v : List Char), v.length ≤ n → noNoise v = true →
      ∀ w ∈ chunksBy isWsChar v, noNoise w = true := by
  intro n
  induction n with
  | zero =>
    intro v hlen _ w hw
    have hv : v = [] := List.length_eq_zero.mp (Nat.le_zero.mp hlen)
    subst hv
    simp [chunksBy, chunksGo] at hw
  | succ n ih =>
    intro v hlen hnn w hw
    cases v with
    | nil => simp [chunksBy, chunksGo] at hw
    | cons c v2 =>
      cases hws : isWsChar c with
      | true =>
        have hnw : isWordChar c = false := ws_not_word hws
        have hch : chunksBy isWsChar (c :: v2) = chunksBy isWsChar v2 := by
          simp [chunksBy, chunksGo, hws]
        have hnn2 : noNoise v2 = true := by
          have hstep : noNoiseGo [] (c :: v2) =
              (!isNoiseRun (([] : List Char)).reverse && noNoiseGo [] v2) := by
            simp [noNoiseGo, hnw]
          have h3 := hnn
          rw [noNoise, hstep, Bool.and_eq_true] at h3
          exact h3.2
        refine ih v2 ?_ hnn2 w (by rwa [hch] at hw)
        simp only [List.length_cons] at hlen
        omega
      | false =>
        have hsplit : c :: v2 =
            (c :: v2).takeWhile (fun ch => !isWsChar ch) ++
              (c :: v2).dropWhile (fun ch => !isWsChar ch) :=
          (List.takeWhile_append_dropWhile _ _).symm
        have huc : ∀ ch ∈ (c :: v2).takeWhile (fun ch => !isWsChar ch),
            isWsChar ch = false := by
          intro ch hch
          have := List.mem_takeWhile_imp hch
          simpa using this
        have hut : (c :: v2).takeWhile (fun ch => !isWsChar ch) =
            c :: v2.takeWhile (fun ch => !isWsChar ch) := by
          rw [List.takeWhile_cons_of_pos (by simp [hws])]
        have hchu : chunksBy isWsChar (c :: v2) =
            chunksGo isWsChar ((c :: v2).takeWhile (fun ch => !isWsChar ch)).reverse
              ((c :: v2).dropWhile (fun ch => !isWsChar ch)) := by
          conv_lhs => rw [chunksBy, hsplit]
          rw [chunksGo_consume isWsChar _ huc [] _, List.append_nil]
        cases hrc : (c :: v2).dropWhile (fun ch => !isWsChar ch) with
        | nil =>
          have hveq : c :: v2 = (c :: v2).takeWhile (fun ch => !isWsChar ch) := by
            conv_lhs => rw [hsplit]
            rw [hrc, List.append_nil]
          rw [hchu, hrc, hut] at hw
          have hne : ((c :: v2.takeWhile (fun ch => !isWsChar ch)).reverse).isEmpty
              = false := by
            simp [List.isEmpty_iff]
          simp only [chunksGo, hne, Bool.false_eq_true, if_false,
            List.reverse_reverse, List.mem_singleton] at hw
          subst hw
          rw [← hut, ← hveq]
          exact hnn
        | cons d rest2 =>
          have hd : isWsChar d = true := by
            have := dropWhile_head_false (fun ch => !isWsChar ch) (c :: v2) d rest2 hrc
            simpa using this
          have hdnw : isWordChar d = false := ws_not_word hd
          have hnsplit : noNoiseGo [] (c :: v2) =
              (noNoiseGo [] ((c :: v2).takeWhile (fun ch => !isWsChar ch)) &&
                noNoiseGo [] rest2) := by
            conv_lhs => rw [hsplit, hrc]
            exact noNoiseGo_split _ hdnw [] rest2
          have hnn2 := hnn
          rw [noNoise, hnsplit, Bool.and_eq_true] at hnn2
          have hchs : chunksBy isWsChar (c :: v2) =
              (c :: v2).takeWhile (fun ch => !isWsChar ch) ::
                chunksBy isWsChar rest2 := by
            rw [hchu, hrc, hut]
            have hne : ((c :: v2.takeWhile (fun ch => !isWsChar ch)).reverse).isEmpty
                = false := by
              simp [List.isEmpty_iff]
            simp only [chunksGo, hd, if_true, hne, Bool.false_eq_true, if_false,
              List.reverse_reverse]
            rw [← hut]
            rfl
          rw [hchs] at hw
          rcases List.mem_cons.mp hw with hw | hw
          · subst hw
            exact hnn2.1
          · have hlr : ((c :: v2).dropWhile (fun ch => !isWsChar ch)).length ≤
                (c :: v2).length :=
              (List.dropWhile_sublist _).length_le
            rw [hrc] at hlr
            simp only [List.length_cons] at hlr hlen
            exact ih rest2 (by omega) hnn2.2 w hw

theorem noNoise_joinWords :
    ∀ (ws : List (List Char)), (∀ w ∈ ws, noNoise w = true) →
      noNoise (joinWords ws) = true := by
  intro ws
  induction ws with
  | nil =>
    intro _
    decide
  | cons w ws ih =>
    intro h
    cases ws with
    | nil => exact h w (by simp)
    | cons x ws2 =>
      rw [show joinWords (w :: x :: ws2) = w ++ ' ' :: joinWords (x :: ws2) from rfl,
        noNoise, noNoiseGo_split w (show isWordChar ' ' = false by decide) [] _,
        Bool.and_eq_true]
      exact ⟨h w (by simp), ih (fun v hv => h v (by simp [hv]))⟩

theorem normL_fixpoint (x : List Char) (hx : '_' ∉ x) : normL (normL x) = normL x := by
  have props0 := chunksGo_props isWsChar (punctSub (noiseSub (stripL x))) [] (by simp)
  have hstrip : stripL (normL x) = normL x := by
    apply stripL_eq_self
    · exact joinWords_head_not_ws _ props0
    · exact joinWords_revhead_not_ws _ props0
  have hund : ∀ c ∈ noiseSub (stripL x), c ≠ '_' := by
    intro c hc
    rcases mem_noiseSubGo (stripL x) [] c hc with h | h | h
    · rw [h]; decide
    · intro he
      subst he
      exact hx (mem_stripL h)
    · exact absurd h (List.not_mem_nil c)
  have hnn0 : noNoise (noiseSub (stripL x)) = true := noNoise_noiseSub (stripL x)
  have hnn1 : noNoise (punctSub (noiseSub (stripL x))) = true := by
    rw [noNoise, noNoiseGo_punctSub _ hund []]
    exact hnn0
  have hnnw : ∀ w ∈ chunksBy isWsChar (punctSub (noiseSub (stripL x))),
      noNoise w = true :=
    noNoise_chunks_aux (punctSub (noiseSub (stripL x))).length _ le_rfl hnn1
  have hnny : noNoise (normL x) = true := noNoise_joinWords _ hnnw
  have hnoise : noiseSub (normL x) = normL x := by
    have h3 := noiseSubGo_id_of_noNoise (normL x) [] hnny
    simpa [noiseSub] using h3
  have hpf : ∀ c ∈ normL x, isPunctChar c = false := by
    intro c hc
    rcases mem_joinWords _ c hc with h | ⟨w, hw, hcw⟩
    · rw [h]; decide
    · rcases mem_chunksGo isWsChar _ [] w hw c hcw with h2 | h2
      · exact mem_punctSub h2
      · exact absurd h2 (List.not_mem_nil c)
  have hpunct : punctSub (normL x) = normL x := punctSub_id _ hpf
  have hjw : chunksBy isWsChar (normL x) =
      chunksBy isWsChar (punctSub (noiseSub (stripL x))) :=
    chunks_joinWords _ props0
  show joinWords (chunksBy isWsChar (punctSub (noiseSub (stripL (normL x))))) = normL x
  rw [hstrip, hnoise, hpunct, hjw]
  rfl

/-! ### Claim C4: the two theorems -/

/-- C4 counterexample: normalization is NOT idempotent.  In "years_" the
underscore is a word character, so NOISE_RE does not match "years"; the
punctuation pass then deletes the underscore, and the first application
returns "years" - which a second application erases to "". -/
theorem C4_not_idempotent_counterexample :
    normalize_skill_label (normalize_skill_label "years_") ≠
      normalize_skill_label "years_" := by
  decide

/-- C4 amended: the text normalizer is idempotent on every string that
contains no underscore character: for all such s,
normalize_skill_label (normalize_skill_label s) = normalize_skill_label s.
(The underscore is the unique character that is both a regex word character
and in the punctuation class, which is the only way the first pass can
uncover a new noise token for the second.) -/
theorem C4_idempotent_without_underscore (s : String) (h : '_' ∉ s.data) :
    normalize_skill_label (normalize_skill_label s) = normalize_skill_label s := by
  by_cases h0 : s.data.isEmpty = true
  · have hs : normalize_skill_label s = "" := by rw [normalize_skill_label, if_pos h0]
    rw [hs]
    rfl
  · have hs : normalize_skill_label s = String.mk (normL s.data) := by
      rw [normalize_skill_label, if_neg h0]
    rw [hs]
    by_cases h1 : (normL s.data).isEmpty = true
    · have h2 : normL s.data = [] := by simpa [List.isEmpty_iff] using h1
      rw [h2]
      rfl
    · rw [normalize_skill_label, if_neg h1]
      congr 1
      exact normL_fixpoint s.data h

theorem C4_idempotent_without_underscore_witness :
    ('_' ∉ ("Core Java (exp)" : String).data) ∧
    normalize_skill_label (normalize_skill_label "Core Java (exp)") =
      normalize_skill_label "Core Java (exp)" :=
  ⟨by decide, C4_idempotent_without_underscore "Core Java (exp)" (by decide)⟩
